import Mathlib

/-
Verification of the branch-and-bound CVRP solver in code/branchnbound.py.

The Python program works on numpy float64 matrices.  Matrix entries, node ids
(labels), lower bounds and penalties are all numpy float64 values; we model the
float64 values actually reachable in this program with the inductive type `Val`
(exact integers plus the two infinities and NaN; the program only adds,
subtracts, negates, compares and takes minima of input values, so any
subring of the reals models the finite values faithfully, and the integers
keep every operation computable by the kernel).  Several behaviours of the source depend on CPython/numpy
semantics that we reproduce faithfully and document at each site:

* `x is 0` / `x is DEPOT` on a numpy float64 is an object-identity test against
  a small Python int and is always False;
* `len(m) is 3` compares interned small ints and behaves like `len(m) == 3`;
* IEEE comparisons with NaN are False; `min` of numpy (`ndarray.min`)
  propagates NaN, while the Python builtin `min` keeps the current minimum
  unless the next element compares strictly smaller;
* indexing a numpy array with a float64 (as `calculate_value` does through
  `distance_between`) raises IndexError;
* iterating a Python list while calling `remove` on it skips the element that
  follows each removed one (this is what `BranchNBound.prune` does).

Python exceptions are modelled with `Except Err`; an uncaught exception is an
`Except.error`.
-/

/-- Model of the numpy float64 values reachable in this program: exact finite
values, the two infinities and NaN. -/
inductive Val where
  | fin (q : ℤ)
  | inf
  | ninf
  | nan
deriving DecidableEq, Repr

/-- IEEE `<=` as numpy/Python evaluate it: any comparison with NaN is false. -/
def Val.le : Val → Val → Bool
  | .nan, _ => false
  | _, .nan => false
  | .ninf, _ => true
  | _, .ninf => false
  | _, .inf => true
  | .inf, _ => false
  | .fin a, .fin b => decide (a ≤ b)

/-- IEEE `<` with NaN comparing false. -/
def Val.lt : Val → Val → Bool
  | .nan, _ => false
  | _, .nan => false
  | .ninf, .ninf => false
  | .ninf, _ => true
  | _, .ninf => false
  | .inf, _ => false
  | _, .inf => true
  | .fin a, .fin b => decide (a < b)

/-- IEEE `==` with NaN unequal to everything, including itself. -/
def ieeeEq : Val → Val → Bool
  | .nan, _ => false
  | _, .nan => false
  | .fin a, .fin b => decide (a = b)
  | .inf, .inf => true
  | .ninf, .ninf => true
  | _, _ => false

/-- IEEE addition: NaN propagates, `inf + (-inf) = NaN`. -/
def Val.add : Val → Val → Val
  | .nan, _ => .nan
  | _, .nan => .nan
  | .inf, .ninf => .nan
  | .ninf, .inf => .nan
  | .inf, _ => .inf
  | _, .inf => .inf
  | .ninf, _ => .ninf
  | _, .ninf => .ninf
  | .fin a, .fin b => .fin (a + b)

/-- IEEE negation. -/
def Val.neg : Val → Val
  | .fin q => .fin (-q)
  | .inf => .ninf
  | .ninf => .inf
  | .nan => .nan

/-- IEEE subtraction; in particular `inf - inf = NaN`. -/
def Val.sub (a b : Val) : Val := Val.add a (Val.neg b)

/-- Pairwise minimum as numpy computes it inside `ndarray.min`: NaN propagates. -/
def npMin2 (a b : Val) : Val :=
  if a = Val.nan || b = Val.nan then Val.nan else if Val.le a b then a else b

/-- Minimum of a list as `ndarray.min(axis=...)` computes it: NaN anywhere makes
the result NaN.  numpy raises on an empty axis; that case is unreachable here
and returns NaN. -/
def npMin : List Val → Val
  | [] => Val.nan
  | h :: t => t.foldl npMin2 h

/-- The Python builtin `min` used in `select_edge`: keep the current value
unless the next element compares strictly smaller (so a NaN that is not first
is skipped).  `min` of an empty sequence raises; unreachable here, NaN. -/
def pyMin : List Val → Val
  | [] => Val.nan
  | h :: t => t.foldl (fun m x => if Val.lt x m then x else m) h

/-- The Python builtin `sum` (used on the row/column minima): starts from the
int 0 and adds left to right. -/
def sumVal (l : List Val) : Val := l.foldl Val.add (Val.fin 0)

/-- Matrix cell read, `m[i, j]`.  Out-of-range access raises in Python; all
uses below are in range, the default is NaN. -/
def mget (m : List (List Val)) (i j : ℕ) : Val := (m.getD i []).getD j Val.nan

/-- Matrix cell write, `m[i, j] = v` (no-op when out of range; in-range at all
call sites). -/
def setCell (m : List (List Val)) (i j : ℕ) (v : Val) : List (List Val) :=
  m.set i ((m.getD i []).set j v)

/-- `np.delete(m, i, axis=0)`. -/
def delRow (i : ℕ) (m : List (List Val)) : List (List Val) := m.eraseIdx i

/-- `np.delete(m, j, axis=1)`. -/
def delCol (j : ℕ) (m : List (List Val)) : List (List Val) := m.map (·.eraseIdx j)

/-- The data region `m[1:, 1:]` of a labelled matrix: drop the label row and the
label column. -/
def dataRowsOf (m : List (List Val)) : List (List Val) := (m.drop 1).map (List.drop 1)

/-- An edge is a pair of original node ids, which in this program are always
numpy float64 labels read out of the matrix. -/
abbrev Edge : Type := Val × Val

/-- Python `==` on edge tuples compares the two float components. -/
def edgeEq (a b : Edge) : Bool := ieeeEq a.1 b.1 && ieeeEq a.2 b.2

/-- The value stored in the `is_feasible` attribute.  The source stores Python
`True` / `False`, but `init_from_partial` (line 130) stores `partial.edges`,
which is the edges dictionary: a non-bool truthy object.  `yes` models `True`,
`no` models `False`, `edgesDict` models the dictionary. -/
inductive Feas where
  | yes
  | no
  | edgesDict
deriving DecidableEq, Repr

/-- Python truthiness of the `is_feasible` attribute (`if solution.is_feasible:`).
The edges dictionary is non-empty, hence truthy. -/
def Feas.truthy : Feas → Bool
  | .no => false
  | _ => true

/-- Exceptions the engine can raise, plus the artificial `fuelOut` marker used
by the fuel-based loops (proved unreachable where it matters). -/
inductive Err where
  | edgeLookup
  | leafValueError
  | degenerateMatrix
  | noneCompare
  | floatIndex
  | fuelOut
deriving DecidableEq, Repr

/-- The state of one `BnBPartialSolution` object (search-tree node).  Fields
follow the Python attributes; `routes = None` is modelled by `[]` (the code
always calls `construct_routes` before reading `routes`).  `network` is the
demand lookup `network.get_node(id).demand`. -/
structure BnBSolution where
  lookup_matrix : List (List Val)
  network : Int → ℤ
  routes : List (List Edge)
  distance_matrix : List (List Val)
  lower_bound : Val
  edges_included : List Edge
  edges_excluded : List Edge
  is_feasible : Feas
  solved : Bool
  capacity : ℤ

/-- Row minima of the data region, `matrix[1:, 1:].min(axis=1)`. -/
def npRowMins (m : List (List Val)) : List Val := (dataRowsOf m).map npMin

/-- Subtract a row minimum from the data cells of one labelled row. -/
def reduceRow (row : List Val) (mn : Val) : List Val :=
  match row with
  | [] => []
  | l0 :: data => l0 :: data.map (fun v => Val.sub v mn)

/-- `matrix[1:, 1:] -= row_minimums` (the label row and column are untouched). -/
def rowReduce (m : List (List Val)) : List (List Val) :=
  match m with
  | [] => []
  | lab :: rest => lab :: List.zipWith reduceRow rest (npRowMins m)

/-- Column `j` of a list of rows. -/
def colOf (rows : List (List Val)) (j : ℕ) : List Val :=
  rows.map (fun r => r.getD j Val.nan)

/-- Column minima of the data region, `matrix[1:, 1:].min(axis=0)`, computed on
the already row-reduced matrix. -/
def npColMins (m : List (List Val)) : List Val :=
  (List.range ((dataRowsOf m).headD []).length).map
    (fun j => npMin (colOf (dataRowsOf m) j))

/-- Subtract the column minima from the data cells of one labelled row. -/
def reduceCols (row : List Val) (mins : List Val) : List Val :=
  match row with
  | [] => []
  | l0 :: data => l0 :: data.mapIdx (fun j v => Val.sub v (mins.getD j Val.nan))

/-- `matrix[1:, 1:] -= column_minimums`. -/
def colReduce (m : List (List Val)) (mins : List Val) : List (List Val) :=
  match m with
  | [] => []
  | lab :: rest => lab :: rest.map (fun r => reduceCols r mins)

/-- `BnBPartialSolution.bound` (lines 135-148): Little's reduction.  Row minima
are subtracted first, column minima are taken on the row-reduced matrix, and
the sum of all minima is added to `lower_bound`.  (The `except TypeError`
branch of the source is dead: `lower_bound` is initialised to 0, never None.) -/
def bound (s : BnBSolution) : BnBSolution :=
  let rmins := npRowMins s.distance_matrix
  let m1 := rowReduce s.distance_matrix
  let cmins := npColMins m1
  let m2 := colReduce m1 cmins
  { s with distance_matrix := m2,
           lower_bound := Val.add s.lower_bound (Val.add (sumVal rmins) (sumVal cmins)) }

/-- `BnBPartialSolution.select_edge` (lines 324-342).  The source guard
`if matrix[i, j] is 0: continue` is an object-identity test of a numpy float64
against the Python int 0 and is always false in CPython, so no cell is ever
skipped and the penalty is computed for every data cell.  `best_edge` starts as
`(None, None)`, modelled by `none`; `highest_penalty` starts at the int 0. -/
def select_edge (s : BnBSolution) : Option Edge :=
  let m := s.distance_matrix
  let n := m.length
  let res := (List.range' 1 (n - 1)).foldl (fun acc i =>
    (List.range' 1 (n - 1)).foldl (fun acc2 j =>
      let row := ((m.getD i []).drop 1).set (j - 1) Val.inf
      let column := ((m.map (fun r => r.getD j Val.nan)).drop 1).set (i - 1) Val.inf
      let penalty := Val.add (pyMin row) (pyMin column)
      if Val.lt acc2.2 penalty then ((some (mget m i 0, mget m 0 j), penalty) : Option Edge × Val)
      else acc2) acc) ((none, Val.fin 0) : Option Edge × Val)
  res.1

/-- `BnBPartialSolution.edge_to_real_indexes` (lines 273-287): find the row of
the matrix whose label (column 0) equals the edge origin and the column whose
label (row 0) equals the destination; `none` models the ValueError raised when
either is missing. -/
def edge_to_real_indexes (m : List (List Val)) (e : Edge) : Option (ℕ × ℕ) :=
  match (m.map (fun r => r.getD 0 Val.nan)).findIdx? (fun lab => ieeeEq e.1 lab),
        (m.getD 0 []).findIdx? (fun lab => ieeeEq e.2 lab) with
  | some i, some j => some (i, j)
  | _, _ => none

/-- `BnBPartialSolution.solve_leaf` (lines 195-217) on a 3-line matrix: for each
of the two data rows take the first cell not `== inf` (NaN would qualify, as in
the source) and emit the edge (row label, that column label); `none` models the
ValueError raised when a row has no such cell.  On success both edges are
appended to `included` and `solved` is set. -/
def solve_leaf (s : BnBSolution) : Option BnBSolution :=
  let m := s.distance_matrix
  let pick := fun (r : ℕ) =>
    if ieeeEq (mget m r 1) Val.inf = false then some (mget m 0 1)
    else if ieeeEq (mget m r 2) Val.inf = false then some (mget m 0 2)
    else none
  match pick 1, pick 2 with
  | some c1, some c2 =>
      some { s with
              edges_included := s.edges_included ++ [(mget m 1 0, c1), (mget m 2 0, c2)],
              solved := true }
  | _, _ => none

/-- Python `list.insert(i, a)` (index clamped to the length). -/
def insertAt (l : List Edge) (i : ℕ) (a : Edge) : List Edge := l.take i ++ a :: l.drop i

/-- One route scan of `construct_routes` (lines 298-309): walk the route
left-to-right; at the first index where the edge chains (its head equals the
route edge's origin, or its origin equals the route edge's head, with the
neighbour consistency guards of the source), insert it there.  The source's
`edge[1] is not DEPOT` and `edge[0] is not DEPOT` compare a numpy float64 with
the int 1 by identity and are always true, so they are dropped.  The first
counter is the remaining length (structural fuel), the second is the index. -/
def tryInsertGo (e : Edge) (route : List Edge) : ℕ → ℕ → Option (List Edge)
  | 0, _ => none
  | k + 1, i =>
    match route.getD i (Val.nan, Val.nan), decide (i < route.length) with
    | re, true =>
      if ieeeEq e.2 re.1 then
        if i = 0 then some (insertAt route i e)
        else if ieeeEq (route.getD (i - 1) (Val.nan, Val.nan)).2 e.1 then some (insertAt route i e)
        else tryInsertGo e route k (i + 1)
      else if ieeeEq re.2 e.1 then
        if i = route.length - 1 then some (insertAt route (i + 1) e)
        else if ieeeEq e.2 (route.getD (i + 1) (Val.nan, Val.nan)).1 then some (insertAt route (i + 1) e)
        else tryInsertGo e route k (i + 1)
      else tryInsertGo e route k (i + 1)
    | _, false => none

/-- Try to place an edge in one existing route fragment. -/
def tryInsertRoute (e : Edge) (route : List Edge) : Option (List Edge) :=
  tryInsertGo e route route.length 0

/-- The outer `for route in routes` loop of `construct_routes`: the inner
`break` only leaves the scan of one route, so after a successful insertion the
remaining routes are still scanned (and the edge can be inserted again). -/
def tryInsertAll (e : Edge) (routes : List (List Edge)) : List (List Edge) × Bool :=
  routes.foldl (fun acc r =>
    match tryInsertRoute e r with
    | some r2 => (acc.1 ++ [r2], true)
    | none => (acc.1 ++ [r], acc.2)) ([], false)

/-- Lookup in the retry `memo` dictionary (keys compare with tuple `==`). -/
def memoFind (memo : List (Edge × ℕ)) (e : Edge) : Option ℕ :=
  (memo.find? (fun p => edgeEq p.1 e)).map (·.2)

/-- Store a count in the retry `memo` dictionary. -/
def memoStore (memo : List (Edge × ℕ)) (e : Edge) (c : ℕ) : List (Edge × ℕ) :=
  if memo.any (fun p => edgeEq p.1 e) then
    memo.map (fun p => if edgeEq p.1 e then (p.1, c) else p)
  else memo ++ [(e, c)]

/-- The `while edges:` loop of `construct_routes` (lines 295-321).  The deque is
a list whose left end is the head: `pop()` takes the last element,
`appendleft` conses.  A failed edge is re-queued and its memo count bumped;
past 10 retries it opens a new route.  Each edge is therefore re-queued at most
11 times, so the loop performs fewer steps than the fuel passed at the top
level; the fuel-exhausted branch is unreachable. -/
def crGo : ℕ → List (List Edge) → List Edge → List (Edge × ℕ) → List (List Edge)
  | 0, routes, _, _ => routes
  | fuel + 1, routes, queue, memo =>
    match queue.getLast? with
    | none => routes
    | some e =>
      let queue2 := queue.dropLast
      let ins := tryInsertAll e routes
      if ins.2 then crGo fuel ins.1 queue2 memo
      else
        match memoFind memo e with
        | some c =>
          if c + 1 > 10 then crGo fuel (routes ++ [[e]]) queue2 (memoStore memo e (c + 1))
          else crGo fuel routes (e :: queue2) (memoStore memo e (c + 1))
        | none => crGo fuel routes (e :: queue2) (memoStore memo e 1)

/-- `BnBPartialSolution.construct_routes` (lines 289-322).  The first fragment
is seeded with the popped (last) included edge.  Pop from an empty deque would
raise IndexError; `included` is never empty at the call sites. -/
def construct_routes (s : BnBSolution) : BnBSolution :=
  match s.edges_included.getLast? with
  | none => { s with routes := [] }
  | some e =>
      { s with routes := crGo (13 * s.edges_included.length + 13)
                              [[e]] s.edges_included.dropLast [] }

/-- `BnBPartialSolution.routes_edges_to_nodes` (lines 259-271).  The membership
tests use Python `==`; the clause `or exit is DEPOT` compares a numpy float64
with the int 1 by identity and is always false, so the depot is not duplicated. -/
def routes_edges_to_nodes (s : BnBSolution) : List (List Val) :=
  s.routes.map (fun route => route.foldl (fun conv e =>
    let conv1 := if conv.any (fun y => ieeeEq y e.1) then conv else conv ++ [e.1]
    if conv1.any (fun y => ieeeEq y e.2) then conv1 else conv1 ++ [e.2]) [])

/-- `BnBPartialSolution.prevent_revisiting` (lines 237-248): for each tentative
route set the matrix cell (tail, head) to infinity; a failed label lookup
(ValueError) is caught and skipped.  An empty node route would raise on
`route[-1]`; unreachable, the NaN endpoints simply fail the lookup. -/
def prevent_revisiting (s : BnBSolution) : BnBSolution :=
  let nroutes := routes_edges_to_nodes s
  let m2 := nroutes.foldl (fun m route =>
    let e : Edge := (route.getLastD Val.nan, route.headD Val.nan)
    match edge_to_real_indexes m e with
    | some ij => setCell m ij.1 ij.2 Val.inf
    | none => m) s.distance_matrix
  { s with distance_matrix := m2 }

/-- Python `int()` applied to a node id (truncation toward zero; the identity
on the integer-valued ids modelled here).  `int()` of inf or NaN raises; node
ids are always finite, default 0. -/
def valToInt : Val → Int
  | .fin q => q
  | _ => 0

/-- `BnBPartialSolution.set_is_feasible` (lines 250-257): accumulate demand
along each node route and flag infeasibility when the running load exceeds the
capacity (the source has no break; the flag is just set, never reset). -/
def set_is_feasible (s : BnBSolution) : BnBSolution :=
  let overloaded := (routes_edges_to_nodes s).any (fun route =>
    (route.foldl (fun acc node =>
      let load := acc.1 + s.network (valToInt node)
      (load, acc.2 || decide (s.capacity < load))) ((0 : ℤ), false)).2)
  if overloaded then { s with is_feasible := Feas.no } else s

/-- `BnBPartialSolution.distance_between` (lines 232-235) indexes the numpy
lookup matrix with `source_id - 1`, a numpy float64: numpy rejects float
indices with IndexError, and the call sits outside the `try` of
`calculate_value`, so it always raises when reached. -/
def distance_between : Except Err Val := Except.error Err.floatIndex

/-- One route of `calculate_value` (lines 219-230): `route[i + 1]` raises
IndexError at the last node, which is caught and breaks the loop, so a route of
at most one node contributes 0; any longer route reaches `distance_between`,
which raises. -/
def routeDistance (route : List Val) : Except Err Val :=
  match route with
  | [] => Except.ok (Val.fin 0)
  | [_] => Except.ok (Val.fin 0)
  | _ :: _ :: _ => do
      let d ← distance_between
      Except.ok d

/-- `BnBPartialSolution.calculate_value`: total distance over all node routes,
starting from the int 0. -/
def calculate_value (s : BnBSolution) : Except Err Val :=
  (routes_edges_to_nodes s).foldlM (fun acc r => do
    let d ← routeDistance r
    Except.ok (Val.add acc d)) (Val.fin 0)

/-- The first half of `with_edge_branch` (lines 154-159): append the edge to
`included` and delete its row and column.  The label lookup happens after the
append in the source, but the append does not affect the lookup. -/
def includeStep (s : BnBSolution) (e : Edge) : Option BnBSolution :=
  (edge_to_real_indexes s.distance_matrix e).map (fun ij =>
    { s with edges_included := s.edges_included ++ [e],
             distance_matrix := delCol ij.2 (delRow ij.1 s.distance_matrix) })

/-- The state `with_edge_branch` hands to `bound` on the non-leaf path. -/
def withPre (s : BnBSolution) (e : Edge) : Option BnBSolution :=
  (includeStep s e).map (fun t => prevent_revisiting (construct_routes t))

/-- `BnBPartialSolution.with_edge_branch` (lines 150-171).  A duplicate include
sets `is_feasible = False` and returns.  `is_leaf` compares `len(matrix) is 3`,
which for CPython small ints behaves as equality, and raises ValueError below 3.
On the leaf path an unsolvable leaf raises ValueError out of `solve_leaf`
(nothing catches it); the `else: is_feasible = False` arm is kept although
`solve_leaf` either succeeds or raises. -/
def withEdgeBranch (s : BnBSolution) (e : Edge) : Except Err BnBSolution :=
  if s.edges_included.any (edgeEq e) then Except.ok { s with is_feasible := Feas.no }
  else
    match includeStep s e with
    | none => Except.error Err.edgeLookup
    | some s2 =>
      if s2.distance_matrix.length = 3 then
        match solve_leaf s2 with
        | none => Except.error Err.leafValueError
        | some s3 =>
          if s3.solved then Except.ok (set_is_feasible (construct_routes s3))
          else Except.ok { s3 with is_feasible := Feas.no }
      else if s2.distance_matrix.length < 3 then Except.error Err.degenerateMatrix
      else Except.ok (set_is_feasible (bound (prevent_revisiting (construct_routes s2))))

/-- The state `without_edge_branch` hands to `bound`: the edge appended to
`excluded` and its matrix cell set to infinity. -/
def withoutPre (s : BnBSolution) (e : Edge) : Option BnBSolution :=
  (edge_to_real_indexes s.distance_matrix e).map (fun ij =>
    { s with edges_excluded := s.edges_excluded ++ [e],
             distance_matrix := setCell s.distance_matrix ij.1 ij.2 Val.inf })

/-- `BnBPartialSolution.without_edge_branch` (lines 176-185).  A duplicate
exclude sets `is_feasible = False` and returns; otherwise the cell is set to
infinity and the node re-bounded. -/
def withoutEdgeBranch (s : BnBSolution) (e : Edge) : Except Err BnBSolution :=
  if s.edges_excluded.any (edgeEq e) then Except.ok { s with is_feasible := Feas.no }
  else
    match withoutPre s e with
    | none => Except.error Err.edgeLookup
    | some s1 => Except.ok (bound s1)

/-- `BnBPartialSolution.init_from_partial` (lines 122-133): clone a parent for
branching.  The matrix is copied (`.copy()`) and the edge lists deep-copied,
which value semantics give us for free; `routes` is reset to None.  Line 130
reads `cls.is_feasible = partial.edges`: the child's feasibility attribute is
the parent's edges dictionary, not the parent's flag. -/
def init_from_parent (p : BnBSolution) : BnBSolution :=
  { lookup_matrix := p.lookup_matrix
    network := p.network
    routes := []
    distance_matrix := p.distance_matrix
    lower_bound := p.lower_bound
    edges_included := p.edges_included
    edges_excluded := p.edges_excluded
    is_feasible := Feas.edgesDict
    solved := p.solved
    capacity := p.capacity }

/-- `BnBPartialSolution.convert` (lines 344-392): build the augmented matrix of
size `len(matrix) + fleet_size` with a label row and column.  Each branch below
is one region written by the source loops (the regions are disjoint and each
cell is written once after the all-infinity initialisation): label row (lines
354-358), label column (361-365), depot rows x customer columns (368-372),
customer rows x depot columns (375-379, whose loop bound `len(converted[i])`
reads the stale `i` left by the previous loop, but every row has the same
length), customer block with infinite diagonal (382-390).  The depot x depot
block is never written and keeps its infinity. -/
def convert (matrix : List (List Val)) (fleet_size : ℕ) : List (List Val) :=
  let size := matrix.length + fleet_size
  (List.range size).map (fun i => (List.range size).map (fun j =>
    if i = 0 then
      if j = 0 then Val.inf
      else if j ≤ fleet_size then Val.fin 1
      else Val.fin ((j : ℤ) - (fleet_size : ℤ) + 1)
    else if j = 0 then
      if i ≤ fleet_size then Val.fin 1
      else Val.fin ((i : ℤ) - (fleet_size : ℤ) + 1)
    else if i ≤ fleet_size then
      if j ≤ fleet_size then Val.inf
      else mget matrix 0 (j - fleet_size)
    else if j ≤ fleet_size then
      mget matrix (i - fleet_size) 0
    else if i = j then Val.inf
    else mget matrix (i - fleet_size) (j - fleet_size)))

/-- A problem instance as the engine consumes it (section 6 of the design):
raw distance matrix with the depot at row/column 0, demand lookup, and the
fleet as the list of vehicle capacities. -/
structure Instance where
  distance_matrix : List (List Val)
  network : Int → ℤ
  fleet : List ℤ

/-- `BnBPartialSolution.init_from_instance` (lines 109-120): the root node.
The lookup matrix is the raw matrix, the working matrix is the augmented one,
the bound starts at 0 and the capacity is the first vehicle's. -/
def init_from_instance (inst : Instance) : BnBSolution :=
  { lookup_matrix := inst.distance_matrix
    network := inst.network
    routes := []
    distance_matrix := convert inst.distance_matrix inst.fleet.length
    lower_bound := Val.fin 0
    edges_included := []
    edges_excluded := []
    is_feasible := Feas.yes
    solved := false
    capacity := inst.fleet.headD 0 }

/-- The engine state of `BranchNBound`.  `current_best` is set by `initialize`
before `run` is ever called, so it is a plain field. -/
structure BranchNBound where
  partial_solutions : List BnBSolution
  upper_bound : Option Val
  current_best : BnBSolution
  times_branched : ℕ

/-- Engine setup (lines 20-26): bound the root and seed the pool. -/
def initializeEngine (inst : Instance) (ub : Option Val) : BranchNBound :=
  let fp := bound (init_from_instance inst)
  { partial_solutions := [fp], upper_bound := ub, current_best := fp, times_branched := 0 }

/-- `BranchNBound.is_more_promising` (lines 88-93).  When
`current.lower_bound <= best.lower_bound` holds but `current` does not have
strictly more included edges, the source falls through and returns None, which
is falsy like the explicit False of the else branch; so the comparison is the
conjunction below. -/
def is_more_promising (best current : BnBSolution) : Bool :=
  if Val.le current.lower_bound best.lower_bound then
    decide (current.edges_included.length > best.edges_included.length)
  else false

/-- `BranchNBound.pop_most_promising_solution` (lines 56-63) on a non-empty
pool `first :: rest`: scan the pool keeping the current candidate and its
index, then `pop(index)`. -/
def pop_most_promising (first : BnBSolution) (rest : List BnBSolution) :
    BnBSolution × List BnBSolution :=
  let pool := first :: rest
  let sel := pool.foldl (fun acc sol =>
    if is_more_promising acc.1 sol then (sol, acc.2.2, acc.2.2 + 1)
    else (acc.1, acc.2.1, acc.2.2 + 1)) ((first, 0, 0) : BnBSolution × ℕ × ℕ)
  (sel.1, pool.eraseIdx sel.2.1)

/-- `BranchNBound.prune` (lines 65-86) with CPython iterator semantics: the
`for` loop holds an index that advances after every element, while `remove`
shifts the tail left, so the element after each removed one is skipped.
Comparing a lower bound or a value against a None `upper_bound` raises
TypeError (`noneCompare`).  Removal is by object identity, i.e. the element at
the current index.  The fuel exceeds the remaining length at every call, so
`fuelOut` is unreachable. -/
def pruneGo : ℕ → List BnBSolution → ℕ → Option Val → BnBSolution →
    Except Err (List BnBSolution × Option Val × BnBSolution)
  | 0, _, _, _, _ => Except.error Err.fuelOut
  | fuel + 1, pool, i, ub, best =>
    if h : i < pool.length then
      let s := pool.get ⟨i, h⟩
      if s.solved then
        if s.is_feasible.truthy then
          match calculate_value s with
          | Except.error e => Except.error e
          | Except.ok v =>
            match ub with
            | none => Except.error Err.noneCompare
            | some u =>
              if Val.lt v u then pruneGo fuel (pool.eraseIdx i) (i + 1) (some v) s
              else pruneGo fuel (pool.eraseIdx i) (i + 1) ub best
        else pruneGo fuel (pool.eraseIdx i) (i + 1) ub best
      else
        match ub with
        | none => Except.error Err.noneCompare
        | some u =>
          if Val.le u s.lower_bound then pruneGo fuel (pool.eraseIdx i) (i + 1) ub best
          else if s.is_feasible = Feas.no then pruneGo fuel (pool.eraseIdx i) (i + 1) ub best
          else pruneGo fuel pool (i + 1) ub best
    else Except.ok (pool, ub, best)

/-- One full sweep of `BranchNBound.prune` over a pool. -/
def prune (pool : List BnBSolution) (ub : Option Val) (best : BnBSolution) :
    Except Err (List BnBSolution × Option Val × BnBSolution) :=
  pruneGo (pool.length + 1) pool 0 ub best

/-- `BranchNBound.branch` (lines 44-54): select an edge, clone the parent twice
and append the with- and without-children to the pool.  When `select_edge`
returns `(None, None)` the subsequent label lookup inside `with_edge_branch`
raises ValueError. -/
def branchStep (to_branch : BnBSolution) (pool : List BnBSolution) :
    Except Err (List BnBSolution) :=
  match select_edge to_branch with
  | none => Except.error Err.edgeLookup
  | some e =>
    match withEdgeBranch (init_from_parent to_branch) e with
    | Except.error er => Except.error er
    | Except.ok l =>
      match withoutEdgeBranch (init_from_parent to_branch) e with
      | Except.error er => Except.error er
      | Except.ok r => Except.ok (pool ++ [l, r])

/-- The `while` loop of `BranchNBound.run` (lines 28-42): pop the most
promising node, branch it, count the branching, sweep the pool, and stop when
the pool is empty or `times_branched > 200`.  Each iteration increases
`times_branched` by one, so from `times_branched = 0` the loop runs at most 201
times and fuel 202 is never exhausted. -/
def runGo : ℕ → BranchNBound → Except Err BranchNBound
  | 0, _ => Except.error Err.fuelOut
  | fuel + 1, st =>
    match st.partial_solutions with
    | [] => Except.ok st
    | h :: t =>
      let pr := pop_most_promising h t
      match branchStep pr.1 pr.2 with
      | Except.error e => Except.error e
      | Except.ok pool2 =>
        let st1 : BranchNBound :=
          { st with partial_solutions := pool2, times_branched := st.times_branched + 1 }
        match prune st1.partial_solutions st1.upper_bound st1.current_best with
        | Except.error e => Except.error e
        | Except.ok res =>
          let st2 : BranchNBound :=
            { st1 with partial_solutions := res.1, upper_bound := res.2.1,
                       current_best := res.2.2 }
          if st2.times_branched > 200 then Except.ok st2 else runGo fuel st2

/-- `BranchNBound.run` down to its final state. -/
def runState (st : BranchNBound) : Except Err BranchNBound := runGo 202 st

/-- `BranchNBound.run`: the returned triple
`(upper_bound, current_best.routes, times_branched)`. -/
def run (st : BranchNBound) : Except Err (Option Val × List (List Edge) × ℕ) :=
  (runState st).map (fun s => (s.upper_bound, s.current_best.routes, s.times_branched))

/-- A value is a nonnegative finite number or positive infinity: the shape of
every data cell of a reachable reduced matrix. -/
def goodB : Val → Bool
  | .fin q => decide (0 ≤ q)
  | .inf => true
  | _ => false

/-- A finite value. -/
def Val.isFin : Val → Bool
  | .fin _ => true
  | _ => false

/-- All data cells of all rows satisfy `goodB`. -/
def allGoodB (rows : List (List Val)) : Bool := rows.all (fun r => r.all goodB)

/-- Every row contains at least one finite cell. -/
def rowsHaveFinB (rows : List (List Val)) : Bool := rows.all (fun r => r.any Val.isFin)

/-- All rows have the same length (numpy arrays are rectangular). -/
def rectB (rows : List (List Val)) : Bool :=
  rows.all (fun r => decide (r.length = (rows.headD []).length))

/-- The data region is rectangular, has only nonnegative finite or infinite
cells, and every data row keeps a finite cell: the hypotheses under which
Little's reduction cannot produce NaN in the bound. -/
def matrixOkB (m : List (List Val)) : Bool :=
  allGoodB (dataRowsOf m) && rowsHaveFinB (dataRowsOf m) && rectB (dataRowsOf m)

/-- A lower bound that is a number or infinity (not NaN). -/
def lbOkB : Val → Bool
  | .fin _ => true
  | .inf => true
  | _ => false

/-- The matrices that `with_edge_branch` (non-leaf path) and
`without_edge_branch` hand to `bound` are well-behaved. -/
def preBoundOk (s : BnBSolution) (e : Edge) : Bool :=
  (match withPre s e with
   | some t => matrixOkB t.distance_matrix
   | none => true) &&
  (match withoutPre s e with
   | some t => matrixOkB t.distance_matrix
   | none => true)

/-- Shorthand for a finite numpy float value. -/
def vf (q : ℤ) : Val := Val.fin q

/-- Build a concrete node state with trivial demand data (demand 0, capacity
100) for the concrete evaluations below. -/
def mkPS (m : List (List Val)) (lb : Val) (inc exc : List Edge) (fz : Feas)
    (sv : Bool) : BnBSolution :=
  { lookup_matrix := []
    network := fun _ => 0
    routes := []
    distance_matrix := m
    lower_bound := lb
    edges_included := inc
    edges_excluded := exc
    is_feasible := fz
    solved := sv
    capacity := 100 }

/-- Pool mate with the worse bound but one included edge. -/
def c1A : BnBSolution := mkPS [] (vf 5) [(vf 9, vf 9)] [] Feas.yes false

/-- Pool mate with the strictly best (minimum) bound. -/
def c1B : BnBSolution := mkPS [] (vf 3) [] [] Feas.yes false

/-- First of two consecutive prunable nodes (bound 12 against incumbent 10). -/
def c2A : BnBSolution := mkPS [] (vf 12) [] [] Feas.yes false

/-- Second prunable node, skipped by the sweep. -/
def c2B : BnBSolution := mkPS [] (vf 12) [] [] Feas.yes false

/-- Incumbent placeholder for the prune sweep. -/
def c2Best : BnBSolution := mkPS [] (vf 0) [] [] Feas.yes false

/-- Matrix with a unique zero data cell at (1,1) but a larger penalty at the
nonzero cell (1,2). -/
def c3S : BnBSolution :=
  mkPS [[Val.inf, vf 2, vf 3], [vf 2, vf 0, vf 1], [vf 3, vf 1, vf 10]]
    (vf 0) [] [] Feas.yes false

/-- Matrix whose first data row is entirely infinite. -/
def c4S : BnBSolution :=
  mkPS [[Val.inf, vf 1, vf 2], [vf 1, Val.inf, Val.inf], [vf 2, vf 1, vf 2]]
    (vf 0) [] [] Feas.yes false

/-- Parent whose data row 1 becomes entirely infinite when the edge (1,1) is
excluded. -/
def c5S : BnBSolution :=
  mkPS [[Val.inf, vf 1, vf 2, vf 3],
        [vf 1, vf 2, Val.inf, Val.inf],
        [vf 2, vf 1, vf 1, vf 1],
        [vf 3, vf 1, vf 1, vf 1]]
    (vf 10) [] [] Feas.yes false

/-- The edge excluded from `c5S`. -/
def c5E : Edge := (vf 1, vf 1)

/-- Well-behaved parent for the amended monotonicity theorem. -/
def c5wS : BnBSolution :=
  mkPS [[Val.inf, vf 1, vf 2, vf 3],
        [vf 1, vf 2, vf 3, vf 4],
        [vf 2, vf 1, vf 2, vf 3],
        [vf 3, vf 3, vf 1, vf 2]]
    (vf 10) [] [] Feas.yes false

/-- The edge branched on from `c5wS`. -/
def c5wE : Edge := (vf 1, vf 1)

/-- The without-child of `c5wS` (the branch succeeds, so the fallback arm is
dead). -/
def c5wChild : BnBSolution :=
  match withoutEdgeBranch c5wS c5wE with
  | Except.ok t => t
  | Except.error _ => c5wS

/-- Node whose excluded set already holds the edge (1,2) that is then included. -/
def c6S : BnBSolution :=
  mkPS [[Val.inf, vf 1, vf 2, vf 3],
        [vf 1, Val.inf, Val.inf, vf 6],
        [vf 2, vf 4, Val.inf, Val.inf],
        [vf 3, Val.inf, vf 7, vf 5]]
    (vf 0) [] [(vf 1, vf 2)] Feas.yes false

/-- The already-excluded edge re-used for inclusion. -/
def c6E : Edge := (vf 1, vf 2)

/-- Node with the edge (1,2) in both sets, for the same-set guard witness. -/
def c6wS : BnBSolution :=
  mkPS [] (vf 0) [(vf 1, vf 2)] [(vf 1, vf 2)] Feas.yes false

/-- The duplicated edge of `c6wS`. -/
def c6wE : Edge := (vf 1, vf 2)

/-- Node whose include step leaves a leaf matrix with an all-infinite data row. -/
def c7S : BnBSolution :=
  mkPS [[Val.inf, vf 1, vf 2, vf 3],
        [vf 1, Val.inf, vf 4, vf 6],
        [vf 2, Val.inf, Val.inf, Val.inf],
        [vf 3, vf 1, vf 2, vf 3]]
    (vf 0) [] [] Feas.yes false

/-- The edge included from `c7S`. -/
def c7E : Edge := (vf 1, vf 2)

/-- Parent marked infeasible, for the cloning claim. -/
def c9P : BnBSolution := mkPS [] (vf 7) [(vf 1, vf 2)] [(vf 3, vf 4)] Feas.no true

/-- A concrete 3x3 raw distance matrix (depot plus customers 2 and 3). -/
def c10D : List (List Val) :=
  [[vf 0, vf 5, vf 7], [vf 4, vf 0, vf 2], [vf 6, vf 3, vf 0]]

/-- Engine state with an empty pool, for the run-loop witness. -/
def c8St : BranchNBound :=
  { partial_solutions := []
    upper_bound := some (vf 9)
    current_best := mkPS [] (vf 0) [] [] Feas.yes false
    times_branched := 0 }

/-- The lower bound of a successful branch result, for stating concrete
counterexamples. -/
def childLB : Except Err BnBSolution → Option Val
  | Except.ok t => some t.lower_bound
  | Except.error _ => none

/-- Whether a successful branch result holds the given edge in both edge sets. -/
def bothSets : Except Err BnBSolution → Edge → Bool
  | Except.ok t, e => t.edges_included.any (edgeEq e) && t.edges_excluded.any (edgeEq e)
  | Except.error _, _ => false

lemma goodB_ne_nan {v : Val} (h : goodB v = true) : v ≠ Val.nan := by
  cases v <;> simp_all [goodB]

lemma goodB_add {a b : Val} (ha : goodB a = true) (hb : goodB b = true) :
    goodB (Val.add a b) = true := by
  cases a <;> cases b <;> simp_all [goodB, Val.add] <;> linarith

lemma goodB_npMin2 {a b : Val} (ha : goodB a = true) (hb : goodB b = true) :
    goodB (npMin2 a b) = true := by
  unfold npMin2
  simp [goodB_ne_nan ha, goodB_ne_nan hb]
  split <;> assumption

lemma val_le_refl {v : Val} (h : v ≠ Val.nan) : Val.le v v = true := by
  cases v <;> simp_all [Val.le]

lemma val_le_trans {a b c : Val} (h1 : Val.le a b = true) (h2 : Val.le b c = true) :
    Val.le a c = true := by
  cases a <;> cases b <;> cases c <;> simp_all [Val.le] <;> linarith

lemma npMin2_le_left {a b : Val} (ha : goodB a = true) (hb : goodB b = true) :
    Val.le (npMin2 a b) a = true := by
  have hna := goodB_ne_nan ha
  have hnb := goodB_ne_nan hb
  unfold npMin2
  simp [hna, hnb]
  by_cases h : Val.le a b = true
  · rw [if_pos h]; exact val_le_refl hna
  · rw [if_neg h]
    cases a <;> cases b <;> simp_all [Val.le, goodB] <;> linarith

lemma npMin2_le_right {a b : Val} (ha : goodB a = true) (hb : goodB b = true) :
    Val.le (npMin2 a b) b = true := by
  have hna := goodB_ne_nan ha
  have hnb := goodB_ne_nan hb
  unfold npMin2
  simp [hna, hnb]
  by_cases h : Val.le a b = true
  · rw [if_pos h]; exact h
  · rw [if_neg h]; exact val_le_refl hnb

lemma goodB_foldl_npMin2 : ∀ (l : List Val) (acc : Val), goodB acc = true →
    (∀ v ∈ l, goodB v = true) → goodB (l.foldl npMin2 acc) = true := by
  intro l
  induction l with
  | nil => intro acc ha _; simpa using ha
  | cons x t ih =>
      intro acc ha hl
      have hx : goodB x = true := hl x (by simp)
      exact ih (npMin2 acc x) (goodB_npMin2 ha hx) (fun v hv => hl v (by simp [hv]))

lemma isFin_npMin2 {a b : Val} (ha : goodB a = true) (hb : goodB b = true) :
    (npMin2 a b).isFin = (a.isFin || b.isFin) := by
  have hna := goodB_ne_nan ha
  have hnb := goodB_ne_nan hb
  unfold npMin2
  simp [hna, hnb]
  by_cases h : Val.le a b = true
  · rw [if_pos h]
    cases a <;> cases b <;> simp_all [Val.le, Val.isFin, goodB]
  · rw [if_neg h]
    cases a <;> cases b <;> simp_all [Val.le, Val.isFin, goodB]

lemma isFin_foldl_npMin2 : ∀ (l : List Val) (acc : Val), goodB acc = true →
    (∀ v ∈ l, goodB v = true) →
    (l.foldl npMin2 acc).isFin = (acc.isFin || l.any Val.isFin) := by
  intro l
  induction l with
  | nil => intro acc _ _; simp
  | cons x t ih =>
      intro acc ha hl
      have hx : goodB x = true := hl x (by simp)
      have h2 := ih (npMin2 acc x) (goodB_npMin2 ha hx) (fun v hv => hl v (by simp [hv]))
      simp only [List.foldl_cons, h2, isFin_npMin2 ha hx, List.any_cons]
      cases acc.isFin <;> cases x.isFin <;> simp

lemma goodB_npMin {l : List Val} (hne : l ≠ []) (hall : ∀ v ∈ l, goodB v = true) :
    goodB (npMin l) = true := by
  cases l with
  | nil => exact absurd rfl hne
  | cons h t =>
      exact goodB_foldl_npMin2 t h (hall h (by simp)) (fun v hv => hall v (by simp [hv]))

lemma isFin_npMin {l : List Val} (hall : ∀ v ∈ l, goodB v = true)
    (hfin : l.any Val.isFin = true) : (npMin l).isFin = true := by
  cases l with
  | nil => simp at hfin
  | cons h t =>
      have := isFin_foldl_npMin2 t h (hall h (by simp)) (fun v hv => hall v (by simp [hv]))
      simp only [npMin, this]
      simpa [List.any_cons] using hfin

lemma foldl_npMin2_le_acc : ∀ (l : List Val) (acc : Val), goodB acc = true →
    (∀ v ∈ l, goodB v = true) → Val.le (l.foldl npMin2 acc) acc = true := by
  intro l
  induction l with
  | nil => intro acc ha _; exact val_le_refl (goodB_ne_nan ha)
  | cons x t ih =>
      intro acc ha hl
      have hx : goodB x = true := hl x (by simp)
      have h1 := ih (npMin2 acc x) (goodB_npMin2 ha hx) (fun v hv => hl v (by simp [hv]))
      exact val_le_trans h1 (npMin2_le_left ha hx)

lemma foldl_npMin2_le_mem : ∀ (l : List Val) (acc x : Val), goodB acc = true →
    (∀ v ∈ l, goodB v = true) → x ∈ l → Val.le (l.foldl npMin2 acc) x = true := by
  intro l
  induction l with
  | nil => intro acc x _ _ hx; simp at hx
  | cons y t ih =>
      intro acc x ha hl hx
      have hy : goodB y = true := hl y (by simp)
      rcases List.mem_cons.mp hx with rfl | hx2
      · exact val_le_trans
          (foldl_npMin2_le_acc t (npMin2 acc x) (goodB_npMin2 ha hy)
            (fun v hv => hl v (by simp [hv])))
          (npMin2_le_right ha hy)
      · exact ih (npMin2 acc y) x (goodB_npMin2 ha hy) (fun v hv => hl v (by simp [hv])) hx2

lemma npMin_le_mem {l : List Val} {x : Val} (hall : ∀ v ∈ l, goodB v = true)
    (hx : x ∈ l) : Val.le (npMin l) x = true := by
  cases l with
  | nil => simp at hx
  | cons h t =>
      rcases List.mem_cons.mp hx with rfl | hx2
      · exact foldl_npMin2_le_acc t x (hall x (by simp)) (fun v hv => hall v (by simp [hv]))
      · exact foldl_npMin2_le_mem t h x (hall h (by simp)) (fun v hv => hall v (by simp [hv])) hx2

lemma reduced_row_good {row : List Val} (hall : ∀ v ∈ row, goodB v = true)
    (hfin : row.any Val.isFin = true) :
    ∀ w ∈ row.map (fun v => Val.sub v (npMin row)), goodB w = true := by
  intro w hw
  rcases List.mem_map.mp hw with ⟨v, hv, rfl⟩
  have hne : row ≠ [] := by
    intro h; subst h; simp at hfin
  have hgmin : goodB (npMin row) = true := goodB_npMin hne hall
  have hfmin : (npMin row).isFin = true := isFin_npMin hall hfin
  rcases hmn : npMin row with m | _ | _ | _ <;> rw [hmn] at hfmin <;>
    simp [Val.isFin] at hfmin
  have hm0 : (0 : ℤ) ≤ m := by rw [hmn] at hgmin; simpa [goodB] using hgmin
  have hgv := hall v hv
  cases v with
  | fin a =>
      have hle := npMin_le_mem hall hv
      rw [hmn] at hle
      have hma : m ≤ a := by simpa [Val.le] using hle
      simp [Val.sub, Val.neg, Val.add, goodB]
      linarith
  | inf => simp [Val.sub, Val.neg, Val.add, goodB]
  | ninf => simp [goodB] at hgv
  | nan => simp [goodB] at hgv

lemma goodB_foldl_add : ∀ (l : List Val) (acc : Val), goodB acc = true →
    (∀ v ∈ l, goodB v = true) → goodB (l.foldl Val.add acc) = true := by
  intro l
  induction l with
  | nil => intro acc ha _; simpa using ha
  | cons x t ih =>
      intro acc ha hl
      exact ih (Val.add acc x) (goodB_add ha (hl x (by simp)))
        (fun v hv => hl v (by simp [hv]))

lemma sumVal_good {l : List Val} (h : ∀ v ∈ l, goodB v = true) :
    goodB (sumVal l) = true :=
  goodB_foldl_add l (Val.fin 0) (by simp [goodB]) h

lemma le_self_add_good {v c : Val} (hv : lbOkB v = true) (hc : goodB c = true) :
    Val.le v (Val.add v c) = true := by
  cases v <;> cases c <;> simp_all [lbOkB, goodB, Val.add, Val.le] <;> linarith

lemma reduceRow_drop (r : List Val) (mn : Val) :
    (reduceRow r mn).drop 1 = (r.drop 1).map (fun v => Val.sub v mn) := by
  cases r <;> rfl

lemma zip_reduceRow_drop (rs : List (List Val)) :
    (List.zipWith reduceRow rs ((rs.map (List.drop 1)).map npMin)).map (List.drop 1)
      = List.zipWith (fun r mn => r.map (fun v => Val.sub v mn))
          (rs.map (List.drop 1)) ((rs.map (List.drop 1)).map npMin) := by
  induction rs with
  | nil => rfl
  | cons r rs ih =>
      simp only [List.map_cons, List.zipWith_cons_cons, ih, reduceRow_drop]

lemma dataRowsOf_rowReduce (m : List (List Val)) :
    dataRowsOf (rowReduce m) =
      List.zipWith (fun r mn => r.map (fun v => Val.sub v mn))
        (dataRowsOf m) ((dataRowsOf m).map npMin) := by
  cases m with
  | nil => rfl
  | cons lab rest =>
      show (List.zipWith reduceRow rest (npRowMins (lab :: rest))).map (List.drop 1) = _
      have h1 : npRowMins (lab :: rest) = (rest.map (List.drop 1)).map npMin := rfl
      have h2 : dataRowsOf (lab :: rest) = rest.map (List.drop 1) := rfl
      rw [h1, h2, zip_reduceRow_drop]

lemma zip_reduce_good (rs : List (List Val))
    (hall : ∀ r ∈ rs, ∀ v ∈ r, goodB v = true)
    (hfin : ∀ r ∈ rs, r.any Val.isFin = true) :
    ∀ r2 ∈ List.zipWith (fun r mn => r.map (fun v => Val.sub v mn)) rs (rs.map npMin),
      ∀ v ∈ r2, goodB v = true := by
  induction rs with
  | nil => simp
  | cons r rs ih =>
      intro r2 hr2
      simp only [List.map_cons, List.zipWith_cons_cons, List.mem_cons] at hr2
      rcases hr2 with rfl | hr2
      · exact reduced_row_good (hall r (by simp)) (hfin r (by simp))
      · exact ih (fun r3 h3 => hall r3 (by simp [h3])) (fun r3 h3 => hfin r3 (by simp [h3]))
          r2 hr2

lemma zip_reduce_lengths (rs : List (List Val)) :
    (List.zipWith (fun r mn => r.map (fun v => Val.sub v mn)) rs (rs.map npMin)).map
        List.length = rs.map List.length := by
  induction rs with
  | nil => rfl
  | cons r rs ih =>
      simp only [List.map_cons, List.zipWith_cons_cons, ih, List.length_map]

lemma rect_of_map_length_eq {rows1 rows2 : List (List Val)}
    (h : rows1.map List.length = rows2.map List.length)
    (hr : ∀ r ∈ rows2, r.length = (rows2.headD []).length) :
    ∀ r ∈ rows1, r.length = (rows1.headD []).length := by
  intro r hr1
  have hmem : r.length ∈ rows1.map List.length := List.mem_map_of_mem _ hr1
  rw [h] at hmem
  rcases List.mem_map.mp hmem with ⟨r2, hr2, he⟩
  have hhead : (rows1.headD []).length = (rows2.headD []).length := by
    cases rows1 with
    | nil => cases rows2 with
      | nil => rfl
      | cons a b => simp at h
    | cons a b => cases rows2 with
      | nil => simp at h
      | cons c d =>
          simp only [List.map_cons, List.cons.injEq] at h
          simp [h.1]
  rw [hhead, ← hr r2 hr2, he]

lemma getD_good {r : List Val} {j : ℕ} (hall : ∀ v ∈ r, goodB v = true)
    (hj : j < r.length) : goodB (r.getD j Val.nan) = true := by
  rw [List.getD_eq_getElem?_getD, List.getElem?_eq_getElem hj]
  exact hall _ (List.getElem_mem hj)

lemma npColMins_good_aux (rows : List (List Val))
    (hall : ∀ r ∈ rows, ∀ v ∈ r, goodB v = true)
    (hrect : ∀ r ∈ rows, r.length = (rows.headD []).length) :
    ∀ c ∈ (List.range (rows.headD []).length).map (fun j => npMin (colOf rows j)),
      goodB c = true := by
  intro c hc
  rcases List.mem_map.mp hc with ⟨j, hj, rfl⟩
  have hjlt : j < (rows.headD []).length := List.mem_range.mp hj
  cases rows with
  | nil => simp at hjlt
  | cons r0 rest =>
      apply goodB_npMin
      · simp [colOf]
      · intro v hv
        rcases List.mem_map.mp hv with ⟨r, hr, rfl⟩
        exact getD_good (hall r hr) (by rw [hrect r hr]; exact hjlt)

lemma bound_lower_bound (s : BnBSolution) :
    (bound s).lower_bound =
      Val.add s.lower_bound
        (Val.add (sumVal (npRowMins s.distance_matrix))
          (sumVal (npColMins (rowReduce s.distance_matrix)))) := rfl

lemma bound_lb_mono (s : BnBSolution) (hm : matrixOkB s.distance_matrix = true)
    (hlb : lbOkB s.lower_bound = true) :
    Val.le s.lower_bound (bound s).lower_bound = true := by
  rw [matrixOkB, Bool.and_eq_true, Bool.and_eq_true] at hm
  have hall : ∀ r ∈ dataRowsOf s.distance_matrix, ∀ v ∈ r, goodB v = true := by
    have := hm.1.1
    simp only [allGoodB, List.all_eq_true] at this
    exact this
  have hfin : ∀ r ∈ dataRowsOf s.distance_matrix, r.any Val.isFin = true := by
    have := hm.1.2
    simp only [rowsHaveFinB, List.all_eq_true] at this
    exact this
  have hrect : ∀ r ∈ dataRowsOf s.distance_matrix,
      r.length = ((dataRowsOf s.distance_matrix).headD []).length := by
    have := hm.2
    simp only [rectB, List.all_eq_true, decide_eq_true_eq] at this
    exact this
  have hrmins : ∀ c ∈ npRowMins s.distance_matrix, goodB c = true := by
    intro c hc
    rcases List.mem_map.mp hc with ⟨r, hr, rfl⟩
    have hne : r ≠ [] := by
      intro h
      have := hfin r hr
      rw [h] at this
      simp at this
    exact goodB_npMin hne (hall r hr)
  have hdr1 := dataRowsOf_rowReduce s.distance_matrix
  have hall1 : ∀ r ∈ dataRowsOf (rowReduce s.distance_matrix), ∀ v ∈ r, goodB v = true := by
    rw [hdr1]; exact zip_reduce_good _ hall hfin
  have hrect1 : ∀ r ∈ dataRowsOf (rowReduce s.distance_matrix),
      r.length = ((dataRowsOf (rowReduce s.distance_matrix)).headD []).length := by
    apply rect_of_map_length_eq _ hrect
    rw [hdr1]; exact zip_reduce_lengths _
  have hcmins : ∀ c ∈ npColMins (rowReduce s.distance_matrix), goodB c = true := by
    simp only [npColMins]
    exact npColMins_good_aux _ hall1 hrect1
  rw [bound_lower_bound]
  exact le_self_add_good hlb (goodB_add (sumVal_good hrmins) (sumVal_good hcmins))

lemma lower_bound_construct_routes (t : BnBSolution) :
    (construct_routes t).lower_bound = t.lower_bound := by
  unfold construct_routes
  split <;> rfl

lemma lower_bound_prevent_revisiting (t : BnBSolution) :
    (prevent_revisiting t).lower_bound = t.lower_bound := rfl

lemma lower_bound_set_is_feasible (t : BnBSolution) :
    (set_is_feasible t).lower_bound = t.lower_bound := by
  unfold set_is_feasible
  dsimp only
  split <;> rfl

lemma solve_leaf_lower_bound {t t3 : BnBSolution} (h : solve_leaf t = some t3) :
    t3.lower_bound = t.lower_bound := by
  unfold solve_leaf at h
  dsimp only at h
  split at h
  · injection h with h2
    rw [← h2]
  · exact Option.noConfusion h

lemma includeStep_lower_bound {s s2 : BnBSolution} {e : Edge}
    (h : includeStep s e = some s2) : s2.lower_bound = s.lower_bound := by
  unfold includeStep at h
  cases hmi : edge_to_real_indexes s.distance_matrix e with
  | none => rw [hmi] at h; simp at h
  | some ij =>
      rw [hmi] at h
      simp only [Option.map_some', Option.some.injEq] at h
      rw [← h]

lemma withoutPre_lower_bound {s s1 : BnBSolution} {e : Edge}
    (h : withoutPre s e = some s1) : s1.lower_bound = s.lower_bound := by
  unfold withoutPre at h
  cases hmi : edge_to_real_indexes s.distance_matrix e with
  | none => rw [hmi] at h; simp at h
  | some ij =>
      rw [hmi] at h
      simp only [Option.map_some', Option.some.injEq] at h
      rw [← h]

/-- Claim C5 (amended): for a parent whose lower bound is a number or infinity
(not NaN), if every matrix that the with- or without-transition hands to the
bound step has a rectangular data region of nonnegative-or-infinite cells with
at least one finite cell per row, then the lower bound of any child produced by
`with_edge_branch` or `without_edge_branch` is at least the parent's. -/
theorem claim_C5_child_bound_monotone (s s2 : BnBSolution) (e : Edge)
    (hok : withEdgeBranch s e = Except.ok s2 ∨ withoutEdgeBranch s e = Except.ok s2)
    (hlb : lbOkB s.lower_bound = true)
    (hpre : preBoundOk s e = true) :
    Val.le s.lower_bound s2.lower_bound = true := by
  have hne : s.lower_bound ≠ Val.nan := by
    cases h : s.lower_bound <;> rw [h] at hlb <;> simp_all [lbOkB]
  rw [preBoundOk, Bool.and_eq_true] at hpre
  rcases hok with h | h
  · unfold withEdgeBranch at h
    by_cases hdup : s.edges_included.any (edgeEq e) = true
    · rw [if_pos hdup] at h
      injection h with h2
      rw [← h2]
      show Val.le s.lower_bound s.lower_bound = true
      exact val_le_refl hne
    · rw [if_neg hdup] at h
      cases his : includeStep s e with
      | none => rw [his] at h; exact Except.noConfusion h
      | some s2mid =>
          rw [his] at h
          dsimp only at h
          have hmid_lb : s2mid.lower_bound = s.lower_bound := includeStep_lower_bound his
          by_cases hlen : s2mid.distance_matrix.length = 3
          · rw [if_pos hlen] at h
            cases hsl : solve_leaf s2mid with
            | none => rw [hsl] at h; exact Except.noConfusion h
            | some s3 =>
                rw [hsl] at h
                dsimp only at h
                have h3lb : s3.lower_bound = s.lower_bound := by
                  rw [solve_leaf_lower_bound hsl, hmid_lb]
                by_cases hsv : s3.solved = true
                · rw [if_pos hsv] at h
                  injection h with h2
                  rw [← h2, lower_bound_set_is_feasible, lower_bound_construct_routes, h3lb]
                  exact val_le_refl hne
                · rw [if_neg hsv] at h
                  injection h with h2
                  rw [← h2]
                  show Val.le s.lower_bound s3.lower_bound = true
                  rw [h3lb]
                  exact val_le_refl hne
          · rw [if_neg hlen] at h
            by_cases hlt : s2mid.distance_matrix.length < 3
            · rw [if_pos hlt] at h; exact Except.noConfusion h
            · rw [if_neg hlt] at h
              injection h with h2
              rw [← h2, lower_bound_set_is_feasible]
              have hX : withPre s e = some (prevent_revisiting (construct_routes s2mid)) := by
                unfold withPre
                rw [his]
                rfl
              have hmok :
                  matrixOkB (prevent_revisiting (construct_routes s2mid)).distance_matrix
                    = true := by
                have h5 := hpre.1
                rw [hX] at h5
                exact h5
              have hXlb :
                  (prevent_revisiting (construct_routes s2mid)).lower_bound
                    = s.lower_bound := by
                rw [lower_bound_prevent_revisiting, lower_bound_construct_routes, hmid_lb]
              have h6 := bound_lb_mono (prevent_revisiting (construct_routes s2mid)) hmok
                (by rw [hXlb]; exact hlb)
              rw [hXlb] at h6
              exact h6
  · unfold withoutEdgeBranch at h
    by_cases hdup : s.edges_excluded.any (edgeEq e) = true
    · rw [if_pos hdup] at h
      injection h with h2
      rw [← h2]
      show Val.le s.lower_bound s.lower_bound = true
      exact val_le_refl hne
    · rw [if_neg hdup] at h
      cases hws : withoutPre s e with
      | none => rw [hws] at h; exact Except.noConfusion h
      | some s1 =>
          rw [hws] at h
          dsimp only at h
          injection h with h2
          have h1lb : s1.lower_bound = s.lower_bound := withoutPre_lower_bound hws
          have hmok : matrixOkB s1.distance_matrix = true := by
            have h5 := hpre.2
            rw [hws] at h5
            exact h5
          have h6 := bound_lb_mono s1 hmok (by rw [h1lb]; exact hlb)
          rw [h1lb] at h6
          rw [← h2]
          exact h6

/-- Claim C1: refuted on the code.  With the pool `[c1A, c1B]` where `c1A` has
lower bound 5 (one included edge) and `c1B` has the strictly smaller lower
bound 3, `pop_most_promising_solution` still returns `c1A`: the comparator
falls through to a falsy None whenever the better-bound node does not also have
strictly more included edges, so the chosen node is not one of minimum
lowerBound. -/
theorem claim_C1_selection :
    pop_most_promising c1A [c1B] = (c1A, [c1B]) ∧
    Val.lt c1B.lower_bound c1A.lower_bound = true := by
  exact ⟨rfl, rfl⟩

/-- Claim C2: refuted on the code.  Sweeping the pool `[c2A, c2B]` (both
unsolved, feasible, lower bound 12) against the incumbent value 10 removes only
`c2A`: the Python `for`/`remove` combination skips the element after each
removal, so `c2B` — whose lower bound is `>=` the incumbent present at sweep
time — stays in the pool and can be branched in a later iteration. -/
theorem claim_C2_prune_sweep :
    prune [c2A, c2B] (some (vf 10)) c2Best = Except.ok ([c2B], some (vf 10), c2Best) ∧
    Val.le (vf 10) c2B.lower_bound = true := by
  exact ⟨rfl, rfl⟩

/-- Claim C3: refuted on the code.  On the matrix of `c3S` the only zero data
cell is (1,1), yet `select_edge` returns the edge (2,3) of the nonzero cell
(1,2) (value 1): the guard `matrix[i, j] is 0` is an identity test on a numpy
float64 and never fires, so all cells — not exactly the zero cells — are
considered. -/
theorem claim_C3_select_edge :
    select_edge c3S = some (vf 2, vf 3) ∧
    mget c3S.distance_matrix 1 2 = vf 1 ∧
    mget c3S.distance_matrix 1 1 = vf 0 := by
  refine ⟨?_, ?_, ?_⟩ <;> decide

/-- Claim C4: refuted on the code.  On the matrix of `c4S`, whose first data
row is entirely infinite, `bound` subtracts the infinite row minimum
(`inf - inf = NaN`) and produces NaN matrix entries and a NaN lower bound
instead of treating the row as contributing 0. -/
theorem claim_C4_bound_nan :
    (bound c4S).lower_bound = Val.nan ∧
    mget (bound c4S).distance_matrix 1 1 = Val.nan := by
  exact ⟨rfl, rfl⟩

/-- Claim C5 counterexample: excluding the edge (1,1) from `c5S` (lower bound
10) makes its first data row entirely infinite, the re-bound produces a NaN
lower bound, and `child.lowerBound >= parent.lowerBound` is false. -/
theorem claim_C5_counterexample :
    childLB (withoutEdgeBranch c5S c5E) = some Val.nan ∧
    Val.le c5S.lower_bound Val.nan = false := by
  exact ⟨rfl, rfl⟩

/-- Witness for the amended claim C5 at a concrete parent and edge. -/
theorem claim_C5_child_bound_monotone_witness :
    Val.le c5wS.lower_bound c5wChild.lower_bound = true :=
  claim_C5_child_bound_monotone c5wS c5wChild c5wE (Or.inr rfl) rfl rfl

/-- Claim C6 counterexample: the edge (1,2) is already in the excluded set of
`c6S`; `with_edge_branch` only checks the included set, so after the call the
edge sits in both the included and the excluded set and the node was not marked
infeasible for that reason. -/
theorem claim_C6_counterexample :
    bothSets (withEdgeBranch c6S c6E) c6E = true := by
  decide

/-- Claim C6 (amended): re-including an edge already in `included`, or
re-excluding an edge already in `excluded`, sets the node's feasibility to
Python False and leaves the matrix and both edge sets otherwise unchanged, not
raising an error; the code does not guard against an edge entering both sets
through the opposite transition. -/
theorem claim_C6_same_set_guard (s : BnBSolution) (e : Edge) :
    (s.edges_included.any (edgeEq e) = true →
      withEdgeBranch s e = Except.ok { s with is_feasible := Feas.no }) ∧
    (s.edges_excluded.any (edgeEq e) = true →
      withoutEdgeBranch s e = Except.ok { s with is_feasible := Feas.no }) := by
  constructor
  · intro h
    unfold withEdgeBranch
    rw [if_pos h]
  · intro h
    unfold withoutEdgeBranch
    rw [if_pos h]

/-- Witness for the amended claim C6 at a node holding the edge in both sets. -/
theorem claim_C6_same_set_guard_witness :
    withEdgeBranch c6wS c6wE = Except.ok { c6wS with is_feasible := Feas.no } ∧
    withoutEdgeBranch c6wS c6wE = Except.ok { c6wS with is_feasible := Feas.no } :=
  ⟨(claim_C6_same_set_guard c6wS c6wE).1 rfl, (claim_C6_same_set_guard c6wS c6wE).2 rfl⟩

/-- Claim C7: refuted on the code.  Including the edge (1,2) of `c7S` leaves a
leaf matrix whose first data row is entirely infinite; `solve_leaf` raises
ValueError and `with_edge_branch` does not catch it, so the failure is fatal to
the run instead of being absorbed as node-local `feasible = false`. -/
theorem claim_C7_leaf_raises :
    withEdgeBranch c7S c7E = Except.error Err.leafValueError := by
  exact rfl

/-- Claim C9: refuted on the code.  Cloning the infeasible parent `c9P` copies
the lower bound, both edge sets and the solved flag, but line 130
(`cls.is_feasible = partial.edges`) stores the parent's edges dictionary in the
child's feasibility attribute, so the child of an infeasible parent is truthy
feasible. -/
theorem claim_C9_clone_feasibility :
    (init_from_parent c9P).lower_bound = c9P.lower_bound ∧
    (init_from_parent c9P).edges_included = c9P.edges_included ∧
    (init_from_parent c9P).edges_excluded = c9P.edges_excluded ∧
    (init_from_parent c9P).solved = c9P.solved ∧
    (init_from_parent c9P).is_feasible ≠ c9P.is_feasible := by
  refine ⟨rfl, rfl, rfl, rfl, ?_⟩
  decide

lemma routeDistance_err {r : List Val} {e : Err}
    (h : routeDistance r = Except.error e) : e = Err.floatIndex := by
  cases r with
  | nil => simp [routeDistance] at h
  | cons a t =>
      cases t with
      | nil => simp [routeDistance] at h
      | cons b t2 =>
          have h0 : routeDistance (a :: b :: t2) = Except.error Err.floatIndex := rfl
          rw [h0] at h
          injection h with h2
          exact h2.symm

lemma except_bind_error {α β : Type} (e : Err) (k : α → Except Err β) :
    ((Except.error e : Except Err α) >>= k) = Except.error e := rfl

lemma except_bind_ok {α β : Type} (a : α) (k : α → Except Err β) :
    ((Except.ok a : Except Err α) >>= k) = k a := rfl

lemma foldlM_routeDistance_err : ∀ (rs : List (List Val)) (acc : Val) (e : Err),
    (rs.foldlM (fun acc r => do
      let d ← routeDistance r
      Except.ok (Val.add acc d)) acc) = Except.error e → e = Err.floatIndex := by
  intro rs
  induction rs with
  | nil => intro acc e h; exact Except.noConfusion h
  | cons r rs ih =>
      intro acc e h
      rw [List.foldlM_cons] at h
      cases hr : routeDistance r with
      | error e2 =>
          rw [hr, except_bind_error, except_bind_error] at h
          injection h with h2
          rw [← h2]
          exact routeDistance_err hr
      | ok d =>
          rw [hr, except_bind_ok, except_bind_ok] at h
          exact ih (Val.add acc d) e h

lemma calculate_value_err {s : BnBSolution} {e : Err}
    (h : calculate_value s = Except.error e) : e = Err.floatIndex :=
  foldlM_routeDistance_err (routes_edges_to_nodes s) (Val.fin 0) e h

lemma pruneGo_ne_fuelOut : ∀ (fuel : ℕ) (pool : List BnBSolution) (i : ℕ)
    (ub : Option Val) (best : BnBSolution), pool.length - i < fuel →
    pruneGo fuel pool i ub best ≠ Except.error Err.fuelOut := by
  intro fuel
  induction fuel with
  | zero => intro pool i ub best h; omega
  | succ f ih =>
      intro pool i ub best h
      have herase : (pool.eraseIdx i).length =
          if i < pool.length then pool.length - 1 else pool.length :=
        List.length_eraseIdx pool i
      by_cases hi : i < pool.length
      · rw [if_pos hi] at herase
        simp only [pruneGo]
        rw [dif_pos hi]
        by_cases hs : (pool.get ⟨i, hi⟩).solved = true
        · rw [if_pos hs]
          by_cases hf : (pool.get ⟨i, hi⟩).is_feasible.truthy = true
          · rw [if_pos hf]
            cases hcv : calculate_value (pool.get ⟨i, hi⟩) with
            | error e2 =>
                have he2 := calculate_value_err hcv
                subst he2
                simp
            | ok v =>
                dsimp only
                cases ub with
                | none => simp
                | some u =>
                    dsimp only
                    by_cases hv : Val.lt v u = true
                    · rw [if_pos hv]
                      apply ih
                      rw [herase]
                      omega
                    · rw [if_neg hv]
                      apply ih
                      rw [herase]
                      omega
          · rw [if_neg hf]
            apply ih
            rw [herase]
            omega
        · rw [if_neg hs]
          cases ub with
          | none => simp
          | some u =>
              dsimp only
              by_cases hle : Val.le u (pool.get ⟨i, hi⟩).lower_bound = true
              · rw [if_pos hle]
                apply ih
                rw [herase]
                omega
              · rw [if_neg hle]
                by_cases hif : (pool.get ⟨i, hi⟩).is_feasible = Feas.no
                · rw [if_pos hif]
                  apply ih
                  rw [herase]
                  omega
                · rw [if_neg hif]
                  apply ih
                  omega
      · simp only [pruneGo]
        rw [dif_neg hi]
        simp

lemma prune_ne_fuelOut (pool : List BnBSolution) (ub : Option Val)
    (best : BnBSolution) : prune pool ub best ≠ Except.error Err.fuelOut :=
  pruneGo_ne_fuelOut (pool.length + 1) pool 0 ub best (by omega)

lemma withEdgeBranch_err {s : BnBSolution} {e : Edge} {er : Err}
    (h : withEdgeBranch s e = Except.error er) : er ≠ Err.fuelOut := by
  unfold withEdgeBranch at h
  by_cases hdup : s.edges_included.any (edgeEq e) = true
  · rw [if_pos hdup] at h
    exact Except.noConfusion h
  · rw [if_neg hdup] at h
    cases his : includeStep s e with
    | none =>
        rw [his] at h
        dsimp only at h
        injection h with h2
        subst h2
        simp
    | some s2 =>
        rw [his] at h
        dsimp only at h
        by_cases hlen : s2.distance_matrix.length = 3
        · rw [if_pos hlen] at h
          cases hsl : solve_leaf s2 with
          | none =>
              rw [hsl] at h
              dsimp only at h
              injection h with h2
              subst h2
              simp
          | some s3 =>
              rw [hsl] at h
              dsimp only at h
              by_cases hsv : s3.solved = true
              · rw [if_pos hsv] at h
                exact Except.noConfusion h
              · rw [if_neg hsv] at h
                exact Except.noConfusion h
        · rw [if_neg hlen] at h
          by_cases hlt : s2.distance_matrix.length < 3
          · rw [if_pos hlt] at h
            injection h with h2
            subst h2
            simp
          · rw [if_neg hlt] at h
            exact Except.noConfusion h

lemma withoutEdgeBranch_err {s : BnBSolution} {e : Edge} {er : Err}
    (h : withoutEdgeBranch s e = Except.error er) : er ≠ Err.fuelOut := by
  unfold withoutEdgeBranch at h
  by_cases hdup : s.edges_excluded.any (edgeEq e) = true
  · rw [if_pos hdup] at h
    exact Except.noConfusion h
  · rw [if_neg hdup] at h
    cases hws : withoutPre s e with
    | none =>
        rw [hws] at h
        dsimp only at h
        injection h with h2
        subst h2
        simp
    | some s1 =>
        rw [hws] at h
        dsimp only at h
        exact Except.noConfusion h

lemma branchStep_err {tb : BnBSolution} {pool : List BnBSolution} {er : Err}
    (h : branchStep tb pool = Except.error er) : er ≠ Err.fuelOut := by
  unfold branchStep at h
  cases hse : select_edge tb with
  | none =>
      rw [hse] at h
      dsimp only at h
      injection h with h2
      subst h2
      simp
  | some e =>
      rw [hse] at h
      dsimp only at h
      cases hwe : withEdgeBranch (init_from_parent tb) e with
      | error e2 =>
          rw [hwe] at h
          dsimp only at h
          injection h with h2
          subst h2
          exact withEdgeBranch_err hwe
      | ok l =>
          rw [hwe] at h
          dsimp only at h
          cases hwo : withoutEdgeBranch (init_from_parent tb) e with
          | error e2 =>
              rw [hwo] at h
              dsimp only at h
              injection h with h2
              subst h2
              exact withoutEdgeBranch_err hwo
          | ok r =>
              rw [hwo] at h
              dsimp only at h
              exact Except.noConfusion h

lemma runGo_spec : ∀ (fuel : ℕ) (st : BranchNBound),
    st.times_branched + fuel = 202 → st.times_branched ≤ 200 →
    (runGo fuel st ≠ Except.error Err.fuelOut) ∧
    ∀ st2, runGo fuel st = Except.ok st2 →
      (st2.partial_solutions = [] ∨ 200 < st2.times_branched) ∧
        st2.times_branched ≤ 201 := by
  intro fuel
  induction fuel with
  | zero => intro st h1 h2; exact absurd h1 (by omega)
  | succ f ih =>
      intro st h1 h2
      cases hp : st.partial_solutions with
      | nil =>
          constructor
          · simp only [runGo, hp]
            simp
          · intro st2 h
            simp only [runGo, hp] at h
            injection h with h3
            subst h3
            exact ⟨Or.inl hp, by omega⟩
      | cons hd tl =>
          simp only [runGo, hp]
          cases hb : branchStep (pop_most_promising hd tl).1 (pop_most_promising hd tl).2 with
          | error e =>
              constructor
              · intro heq
                injection heq with h3
                exact branchStep_err hb h3
              · intro st2 h
                exact Except.noConfusion h
          | ok pool2 =>
              dsimp only
              cases hpr : prune pool2 st.upper_bound st.current_best with
              | error e =>
                  constructor
                  · intro heq
                    injection heq with h3
                    subst h3
                    exact prune_ne_fuelOut pool2 st.upper_bound st.current_best hpr
                  · intro st2 h
                    exact Except.noConfusion h
              | ok res =>
                  dsimp only
                  by_cases hcap : st.times_branched + 1 > 200
                  · rw [if_pos hcap]
                    constructor
                    · exact fun heq => Except.noConfusion heq
                    · intro st2 h
                      injection h with h3
                      subst h3
                      exact ⟨Or.inr hcap, by show st.times_branched + 1 ≤ 201; omega⟩
                  · rw [if_neg hcap]
                    exact ih _ (by show st.times_branched + 1 + f = 202; omega)
                      (by show st.times_branched + 1 ≤ 200; omega)

/-- Claim C8: from any engine state with `times_branched = 0` (as `initialize`
produces), the run loop terminates without exhausting its fuel: it either
raises one of the genuine Python exceptions, or returns a final state reached
only when the pool is empty or the iteration cap is exceeded, after at most 201
branchings, and the returned triple is the incumbent value, the incumbent's
routes and the iteration count — the cap path returns rather than erroring. -/
theorem claim_C8_run_terminates (st : BranchNBound) (h0 : st.times_branched = 0) :
    runState st ≠ Except.error Err.fuelOut ∧
    ∀ st2, runState st = Except.ok st2 →
      (st2.partial_solutions = [] ∨ 200 < st2.times_branched) ∧
        st2.times_branched ≤ 201 ∧
        run st = Except.ok (st2.upper_bound, st2.current_best.routes, st2.times_branched) := by
  have h := runGo_spec 202 st (by omega) (by omega)
  refine ⟨h.1, ?_⟩
  intro st2 h2
  rcases h.2 st2 h2 with ⟨ha, hb⟩
  refine ⟨ha, hb, ?_⟩
  unfold run
  rw [h2]
  rfl

/-- Witness for claim C8 at the concrete engine state `c8St` with an empty
pool. -/
theorem claim_C8_run_terminates_witness :
    (c8St.partial_solutions = [] ∨ 200 < c8St.times_branched) ∧
      c8St.times_branched ≤ 201 ∧
      run c8St = Except.ok (c8St.upper_bound, c8St.current_best.routes, c8St.times_branched) :=
  (claim_C8_run_terminates c8St rfl).2 c8St rfl

/-- Claim C10: every data cell of the augmented matrix `convert D k` follows
the specified region layout: depot-copy x depot-copy cells and all diagonal
cells are infinite, depot-copy rows and columns copy the depot row and column
of `D` against customers, and customer x customer cells copy `D` directly.
`convert` is a plain function of `(D, k)`, hence deterministic. -/
theorem claim_C10_convert_cells (D : List (List Val)) (k i j : ℕ)
    (hi1 : 1 ≤ i) (hi2 : i < D.length + k) (hj1 : 1 ≤ j) (hj2 : j < D.length + k) :
    mget (convert D k) i j =
      (if i ≤ k ∧ j ≤ k then Val.inf
       else if i = j then Val.inf
       else if i ≤ k then mget D 0 (j - k)
       else if j ≤ k then mget D (i - k) 0
       else mget D (i - k) (j - k)) := by
  have hrow : (convert D k).getD i [] =
      (List.range (D.length + k)).map (fun j2 =>
        if i = 0 then
          if j2 = 0 then Val.inf
          else if j2 ≤ k then Val.fin 1
          else Val.fin ((j2 : ℤ) - (k : ℤ) + 1)
        else if j2 = 0 then
          if i ≤ k then Val.fin 1
          else Val.fin ((i : ℤ) - (k : ℤ) + 1)
        else if i ≤ k then
          if j2 ≤ k then Val.inf
          else mget D 0 (j2 - k)
        else if j2 ≤ k then
          mget D (i - k) 0
        else if i = j2 then Val.inf
        else mget D (i - k) (j2 - k)) := by
    unfold convert
    rw [List.getD_eq_getElem?_getD, List.getElem?_map, List.getElem?_range hi2]
    rfl
  have hcell : mget (convert D k) i j =
      (if i = 0 then
          if j = 0 then Val.inf
          else if j ≤ k then Val.fin 1
          else Val.fin ((j : ℤ) - (k : ℤ) + 1)
        else if j = 0 then
          if i ≤ k then Val.fin 1
          else Val.fin ((i : ℤ) - (k : ℤ) + 1)
        else if i ≤ k then
          if j ≤ k then Val.inf
          else mget D 0 (j - k)
        else if j ≤ k then
          mget D (i - k) 0
        else if i = j then Val.inf
        else mget D (i - k) (j - k)) := by
    unfold mget
    rw [hrow, List.getD_eq_getElem?_getD, List.getElem?_map, List.getElem?_range hj2]
    rfl
  rw [hcell]
  split_ifs <;> first | rfl | omega

/-- Witness for claim C10: in the augmented matrix of the concrete raw matrix
`c10D` with two vehicles, the depot-row cell (1,4) copies the depot row entry
`D[0][2]`. -/
theorem claim_C10_convert_cells_witness :
    mget (convert c10D 2) 1 4 = mget c10D 0 2 := by
  have h := claim_C10_convert_cells c10D 2 1 4 (by decide) (by decide) (by decide) (by decide)
  simpa using h
